import Mathlib

/-!
Verification of the scanline rasterizer in `src/raster.rs` (fontdue).

The embedding models `f32` arithmetic with exact rationals `ℚ`: every
floating-point operation of the source (addition, multiplication, division,
`floor`, `ceil`, `recip`, comparisons, casts to integer types) is rendered by
the corresponding exact operation on `ℚ`.  Rust's saturating float-to-`usize`
cast becomes `Int.toNat ∘ Int.floor` (resp. `Int.ceil` after a `ceil` call).
The accumulation buffer `Vec<f32>` is modelled as a total map `ℕ → ℚ` together
with its length `len`; an out-of-range index in `add` (which panics in Rust)
is modelled as a guarded no-op, and the safety claim about `draw_line` proves
that in-range geometry only ever produces in-range indices.
-/

set_option autoImplicit false

open scoped BigOperators

/-- A point: a pair of (idealized) 32-bit float coordinates, from
`crate::math::Point` (declared outside `src/raster.rs`). -/
structure Point where
  x : ℚ
  y : ℚ
  deriving DecidableEq

/-- Modelled from the spec: `Point::lerp` lives in `crate::math`, outside the
given source file.  The spec describes curve-point evaluation as nested
first-order (linear) interpolations between control points, so `lerp t a b`
is the standard linear interpolation `a + t * (b - a)`, componentwise. -/
def Point.lerp (t : ℚ) (a b : Point) : Point :=
  { x := a.x + t * (b.x - a.x), y := a.y + t * (b.y - a.y) }

/-- Modelled from the spec: `crate::math::Geometry` is declared outside the
given source file.  The spec describes it as a discriminated union over
`Line{a, b}` and `Curve{a, b, c}` (quadratic Bézier with endpoints `a`, `c`
and control point `b`). -/
inductive Geometry where
  | line (a b : Point)
  | curve (a b c : Point)

/-- Modelled from the spec: the variant tag test used by `Raster::draw`. -/
def Geometry.is_line : Geometry → Bool
  | .line _ _ => true
  | .curve _ _ _ => false

/-- `Raster { w, h, a: Vec<f32> }`; the vector is modelled as the map `a`
restricted to indices below `len` (`len` stands for `a.len()`). -/
@[ext]
structure Raster where
  w : ℕ
  h : ℕ
  len : ℕ
  a : ℕ → ℚ

/-- `Raster::new(w, h)`: zero-filled buffer of length `w * h + 4`. -/
def Raster.new (w h : ℕ) : Raster :=
  { w := w, h := h, len := w * h + 4, a := fun _ => 0 }

/-- `Raster::refit(w, h)`: panics (modelled as `none`) when
`w * h >= self.a.len()`; otherwise updates only the logical dimensions. -/
def Raster.refit (r : Raster) (w h : ℕ) : Option Raster :=
  if w * h ≥ r.len then none
  else some { r with w := w, h := h }

/-- `Raster::add(index: i32, value: f32)`: `self.a[index as usize] += value`.
In Rust a negative `index` wraps to a huge `usize` and any out-of-range
access panics; both are modelled by the guard (no-op outside the buffer). -/
def Raster.add (r : Raster) (index : ℤ) (value : ℚ) : Raster :=
  if 0 ≤ index ∧ index.toNat < r.len then
    { r with a := Function.update r.a index.toNat (r.a index.toNat + value) }
  else r

/-- The write trace of one iteration of the scanline loop of
`Raster::draw_line` (source lines 71–107): the `(index, value)` arguments of
the `add` calls it performs, in order, given the row start offset, the signed
row area `d`, and the row's entry/exit x-coordinates `x` and `xnext`. -/
def rowWritesCore (linestart : ℤ) (d x xnext x0 x1 : ℚ) : List (ℤ × ℚ) :=
  let x0floor : ℚ := ⌊x0⌋
  let x0i : ℤ := ⌊x0⌋
  let x1ceil : ℚ := ⌈x1⌉
  let x1i : ℤ := ⌈x1⌉
  if x1i ≤ x0i + 1 then
    let xmf := (0.5 : ℚ) * (x + xnext) - x0floor
    [(linestart + x0i, d - d * xmf), (linestart + x0i + 1, d * xmf)]
  else
    let s := (x1 - x0)⁻¹
    let x0f := x0 - x0floor
    let a0 := (0.5 : ℚ) * s * (1 - x0f) * (1 - x0f)
    let x1f := x1 - x1ceil + 1
    let am := (0.5 : ℚ) * s * x1f * x1f
    let mid : List (ℤ × ℚ) :=
      if x1i = x0i + 2 then
        [(linestart + x0i + 1, d * (1 - a0 - am))]
      else
        let a1 := s * ((1.5 : ℚ) - x0f)
        let a2 := a1 + ((x1i - x0i - 3 : ℤ) : ℚ) * s
        ((linestart + x0i + 1, d * (a1 - a0)) ::
          (List.range (x1i - 1 - (x0i + 2)).toNat).map
            (fun (k : ℕ) => (linestart + x0i + 2 + (k : ℤ), d * s))) ++
          [(linestart + x1i - 1, d * (1 - a2 - am))]
    ((linestart + x0i, d * a0) :: mid) ++ [(linestart + x1i, d * am)]

/-- The write trace of one scanline iteration: destructure
`let (x0, x1) = if x < xnext { (x, xnext) } else { (xnext, x) }` and hand the
span to `rowWritesCore`. -/
def rowWrites (linestart : ℤ) (d x xnext : ℚ) : List (ℤ × ℚ) :=
  rowWritesCore linestart d x xnext (if x < xnext then x else xnext)
    (if x < xnext then xnext else x)

/-- The write trace of the scanline loop
`for y in y0..min(self.h, p1.y.ceil() as usize)` of `Raster::draw_line`,
with the remaining iteration count as fuel; `x` is the running x-coordinate
threaded through the rows (`x = xnext` at the end of each iteration). -/
def lineLoop (w : ℕ) (dir dxdy py0 py1 : ℚ) : ℕ → ℕ → ℚ → List (ℤ × ℚ)
  | 0, _, _ => []
  | n + 1, y, x =>
    let linestart : ℤ := ((y * w : ℕ) : ℤ)
    let dy := min ((y + 1 : ℕ) : ℚ) py1 - max ((y : ℕ) : ℚ) py0
    let xnext := x + dxdy * dy
    let d := dy * dir
    rowWrites linestart d x xnext ++ lineLoop w dir dxdy py0 py1 n (y + 1) xnext

/-- The complete write trace of `Raster::draw_line(p0, p1)` on a raster of
logical size `w × h`: the early return on horizontal segments, the direction
normalization, the slope, the saturating cast `p0.y as usize`, the clip
adjustment for `p0.y < 0.0`, then the scanline loop. -/
def lineWrites (w h : ℕ) (p0 p1 : Point) : List (ℤ × ℚ) :=
  if p0.y = p1.y then []
  else
    let dir : ℚ := if p0.y < p1.y then 1 else -1
    let q0 := if p0.y < p1.y then p0 else p1
    let q1 := if p0.y < p1.y then p1 else p0
    let dxdy := (q1.x - q0.x) / (q1.y - q0.y)
    let y0 : ℕ := (⌊q0.y⌋).toNat
    let x : ℚ := if q0.y < 0 then q0.x - q0.y * dxdy else q0.x
    lineLoop w dir dxdy q0.y q1.y (min h (⌈q1.y⌉).toNat - y0) y0 x

/-- `Raster::draw_line`: perform every `add` of the write trace, in order. -/
def Raster.draw_line (r : Raster) (p0 p1 : Point) : Raster :=
  (lineWrites r.w r.h p0 p1).foldl (fun s iv => s.add iv.1 iv.2) r

/-- Exact value of `x.sqrt().sqrt().floor() as usize` for a nonnegative exact
input: the floor of the fourth root, computed as iterated `Nat.sqrt`. -/
def floorQuarticRoot (q : ℚ) : ℕ :=
  Nat.sqrt (Nat.sqrt ⌊q⌋₊)

/-- The interior-segment loop `for _i in 0..n-1` of `Raster::draw_curve`,
with fuel `n - 1`: advances `t` by `nrecip`, evaluates the quadratic Bézier
by nested `lerp`, draws a line from the previous point, and returns the last
point reached together with the updated raster. -/
def curveLoop (p0 p1 p2 : Point) (nrecip : ℚ) :
    ℕ → ℚ → Point → Raster → Point × Raster
  | 0, _, p, r => (p, r)
  | k + 1, t, p, r =>
    let t' := t + nrecip
    let pn := Point.lerp t' (Point.lerp t' p0 p1) (Point.lerp t' p1 p2)
    curveLoop p0 p1 p2 nrecip k t' pn (r.draw_line p pn)

/-- `Raster::draw_curve(p0, p1, p2)`: chord fast path when the squared
deviation is below `0.333`, otherwise `n = 1 + floor((3 * devsq)^(1/4))`
segments, the last drawn explicitly to `p2`. -/
def Raster.draw_curve (r : Raster) (p0 p1 p2 : Point) : Raster :=
  let devx := p0.x - 2 * p1.x + p2.x
  let devy := p0.y - 2 * p1.y + p2.y
  let devsq := devx * devx + devy * devy
  if devsq < (0.333 : ℚ) then r.draw_line p0 p2
  else
    let tol : ℚ := 3
    let n : ℕ := 1 + floorQuarticRoot (tol * (devx * devx + devy * devy))
    let nrecip := (n : ℚ)⁻¹
    let pr := curveLoop p0 p1 p2 nrecip (n - 1) 0 p0 r
    pr.2.draw_line pr.1 p2

/-- `Raster::draw(geometry)`: dispatch on the variant tag. -/
def Raster.draw (r : Raster) (g : Geometry) : Raster :=
  match g with
  | .line a b => r.draw_line a b
  | .curve a b c => r.draw_curve a b c

/-- The per-pixel output byte of the finalizers: `let y = acc.abs(); let y =
if y < 1.0 { y } else { 1.0 }; (255.99998 * y) as u8`.  The product lies in
`[0, 255.99998]`, where the saturating `as u8` cast truncates, i.e. floors. -/
def byteOf (acc : ℚ) : ℕ :=
  let y := |acc|
  let y2 := if y < 1 then y else 1
  (⌊(255.99998 : ℚ) * y2⌋).toNat

/-- The output loop of `Raster::get_bitmap` with fuel: reads cells
`i, i + 1, ...` into the running sum `acc` and emits one byte per cell. -/
def bitmapLoop (a : ℕ → ℚ) : ℕ → ℚ → ℕ → List ℕ
  | 0, _, _ => []
  | n + 1, acc, i =>
    let acc2 := acc + a i
    byteOf acc2 :: bitmapLoop a n acc2 (i + 1)

/-- The output loop of `Raster::consume_bitmap` with fuel: like
`bitmapLoop`, but zeroes each cell as it is read; returns the bytes and the
final buffer contents. -/
def consumeLoop (a : ℕ → ℚ) : ℕ → ℚ → ℕ → List ℕ × (ℕ → ℚ)
  | 0, _, _ => ([], a)
  | n + 1, acc, i =>
    let acc2 := acc + a i
    let rest := consumeLoop (Function.update a i 0) n acc2 (i + 1)
    (byteOf acc2 :: rest.1, rest.2)

/-- `Raster::get_bitmap()`: `w * h` bytes from the prefix-sum pass, buffer
untouched. -/
def Raster.get_bitmap (r : Raster) : List ℕ :=
  bitmapLoop r.a (r.w * r.h) 0 0

/-- `Raster::consume_bitmap()`: same bytes, and the raster with the cells
read by the pass reset to `0.0`. -/
def Raster.consume_bitmap (r : Raster) : List ℕ × Raster :=
  let pr := consumeLoop r.a (r.w * r.h) 0 0
  (pr.1, { r with a := pr.2 })

/-! ## Basic lemmas -/

theorem byteOf_zero : byteOf 0 = 0 := by
  simp [byteOf]

theorem byteOf_one : byteOf 1 = 255 := by
  norm_num [byteOf]
  decide

/-- C7: a purely horizontal segment (`p0.y == p1.y`) makes `draw_line` return
immediately: the raster (accumulation buffer, logical width and height) is
left completely unchanged, for any x-values of the two points. -/
theorem draw_line_horizontal (r : Raster) (p0 p1 : Point) (hy : p0.y = p1.y) :
    r.draw_line p0 p1 = r := by
  simp [Raster.draw_line, lineWrites, hy]

theorem draw_line_horizontal_witness :
    (Raster.new 2 3).draw_line { x := 5, y := 1 } { x := -7, y := 1 } = Raster.new 2 3 :=
  draw_line_horizontal (Raster.new 2 3) { x := 5, y := 1 } { x := -7, y := 1 } rfl

/-- C2: `refit(w, h)` fails (panics, modelled as `none`) exactly when `w * h`
reaches the capacity fixed at construction (`a.len()`, which `new(w0, h0)`
sets to `w0 * h0 + 4`); otherwise it succeeds, updating only the logical
width and height and leaving the buffer contents and length unchanged. -/
theorem refit_capacity (r : Raster) (w h w0 h0 : ℕ) :
    (r.refit w h = none ↔ r.len ≤ w * h) ∧
    (w * h < r.len →
      r.refit w h = some { w := w, h := h, len := r.len, a := r.a }) ∧
    (Raster.new w0 h0).len = w0 * h0 + 4 := by
  refine ⟨?_, ?_, rfl⟩
  · by_cases hc : w * h ≥ r.len
    · simp [Raster.refit, hc]
    · simp [Raster.refit, hc]
  · intro hlt
    simp [Raster.refit, Nat.not_le.mpr hlt]

theorem refit_capacity_witness :
    (Raster.new 2 2).refit 1 3 =
      some { w := 1, h := 3, len := (Raster.new 2 2).len, a := (Raster.new 2 2).a } :=
  (refit_capacity (Raster.new 2 2) 1 3 0 0).2.1 (by norm_num [Raster.new])

/-- C8 counterexample: the claim says `refit` fails whenever
`w * h ≥ original_w * original_h`; but for a raster built with `new(2, 2)`,
`refit(2, 2)` has `w * h = 4 ≥ 4 = original_w * original_h` and succeeds
(the code only fails at `w * h ≥ original_w * original_h + 4`). -/
theorem refit_at_original_area_succeeds :
    2 * 2 ≥ 2 * 2 ∧ (Raster.new 2 2).refit 2 2 ≠ none := by
  refine ⟨le_refl _, ?_⟩
  norm_num [Raster.refit, Raster.new]
  exact fun hcon => Option.noConfusion hcon

/-- C8 amended: `refit(w, h)` fails fatally (CapacityExceeded) exactly when
`w * h` meets or exceeds the full original capacity `original_w * original_h
+ 4` (padding included), not the capacity minus the padding. -/
theorem refit_fails_iff_capacity (w0 h0 w h : ℕ) :
    (Raster.new w0 h0).refit w h = none ↔ w0 * h0 + 4 ≤ w * h := by
  by_cases hc : w * h ≥ w0 * h0 + 4
  · simp [Raster.refit, Raster.new, hc]
  · simp [Raster.refit, Raster.new, hc]

/-- C6: when the squared second-difference deviation is below `0.333` — in
particular when `p1` is the midpoint of `p0` and `p2` (collinear and
equidistant, zero deviation) — `draw_curve(p0, p1, p2)` takes the chord fast
path and leaves the raster in exactly the state of `draw_line(p0, p2)`. -/
theorem draw_curve_low_deviation (r : Raster) (p0 p1 p2 : Point) :
    ((p0.x - 2 * p1.x + p2.x) * (p0.x - 2 * p1.x + p2.x) +
        (p0.y - 2 * p1.y + p2.y) * (p0.y - 2 * p1.y + p2.y) < (0.333 : ℚ) →
      r.draw_curve p0 p1 p2 = r.draw_line p0 p2) ∧
    (p1.x = (p0.x + p2.x) / 2 → p1.y = (p0.y + p2.y) / 2 →
      r.draw_curve p0 p1 p2 = r.draw_line p0 p2) := by
  constructor
  · intro hdev
    simp only [Raster.draw_curve]
    rw [if_pos hdev]
  · intro hx hy
    have h1 : p0.x - 2 * p1.x + p2.x = 0 := by rw [hx]; ring
    have h2 : p0.y - 2 * p1.y + p2.y = 0 := by rw [hy]; ring
    simp only [Raster.draw_curve]
    rw [if_pos]
    rw [h1, h2]
    norm_num

theorem draw_curve_low_deviation_witness :
    (Raster.new 4 4).draw_curve { x := 0, y := 0 } { x := 1, y := 1 } { x := 2, y := 2 } =
      (Raster.new 4 4).draw_line { x := 0, y := 0 } { x := 2, y := 2 } :=
  (draw_curve_low_deviation (Raster.new 4 4) _ _ _).1 (by norm_num)

/-! ## Finalizer lemmas -/

theorem bitmapLoop_length (a : ℕ → ℚ) :
    ∀ (n : ℕ) (acc : ℚ) (i : ℕ), (bitmapLoop a n acc i).length = n
  | 0, _, _ => rfl
  | n + 1, acc, i => by
    simp only [bitmapLoop, List.length_cons, bitmapLoop_length a n]

theorem bitmapLoop_congr (a b : ℕ → ℚ) :
    ∀ (n : ℕ) (acc : ℚ) (i : ℕ),
      (∀ j, i ≤ j → j < i + n → a j = b j) →
      bitmapLoop a n acc i = bitmapLoop b n acc i
  | 0, _, _, _ => rfl
  | n + 1, acc, i, h => by
    have hi : a i = b i := h i le_rfl (by omega)
    simp only [bitmapLoop, hi]
    rw [bitmapLoop_congr a b n _ (i + 1) (fun j h1 h2 => h j (by omega) (by omega))]

theorem bitmapLoop_getD (a : ℕ → ℚ) :
    ∀ (n : ℕ) (acc : ℚ) (i k : ℕ), k < n →
      (bitmapLoop a n acc i).getD k 0 =
        byteOf (acc + ∑ j in Finset.range (k + 1), a (i + j))
  | n + 1, acc, i, 0, _ => by
    simp [bitmapLoop, Finset.sum_range_one]
  | n + 1, acc, i, k + 1, hk => by
    simp only [bitmapLoop, List.getD_cons_succ]
    rw [bitmapLoop_getD a n (acc + a i) (i + 1) k (by omega)]
    congr 1
    have hsum : ∑ j in Finset.range (k + 1), a (i + 1 + j) =
        ∑ j in Finset.range (k + 1), a (i + (j + 1)) :=
      Finset.sum_congr rfl (fun j _ => by rw [show i + 1 + j = i + (j + 1) by omega])
    rw [hsum, Finset.sum_range_succ' (fun j => a (i + j)) (k + 1)]
    simp [add_comm, add_left_comm, add_assoc]

theorem bitmapLoop_zero (a : ℕ → ℚ) :
    ∀ (n i : ℕ), (∀ j, i ≤ j → j < i + n → a j = 0) →
      bitmapLoop a n 0 i = List.replicate n 0
  | 0, _, _ => rfl
  | n + 1, i, h => by
    simp only [bitmapLoop, h i le_rfl (by omega), add_zero, byteOf_zero,
      List.replicate_succ]
    exact congrArg _ (bitmapLoop_zero a n (i + 1) (fun j h1 h2 => h j (by omega) (by omega)))

theorem consumeLoop_fst (a : ℕ → ℚ) :
    ∀ (n : ℕ) (acc : ℚ) (i : ℕ), (consumeLoop a n acc i).1 = bitmapLoop a n acc i
  | 0, _, _ => rfl
  | n + 1, acc, i => by
    simp only [consumeLoop, bitmapLoop]
    rw [consumeLoop_fst _ n _ (i + 1)]
    exact congrArg _ (bitmapLoop_congr _ a n _ (i + 1)
      (fun j h1 h2 => Function.update_noteq (by omega) _ _))

theorem consumeLoop_snd (a : ℕ → ℚ) :
    ∀ (n : ℕ) (acc : ℚ) (i : ℕ),
      (consumeLoop a n acc i).2 = fun k => if i ≤ k ∧ k < i + n then 0 else a k
  | 0, acc, i => by
    funext k
    show a k = _
    rw [if_neg]
    rintro ⟨h1, h2⟩
    omega
  | n + 1, acc, i => by
    simp only [consumeLoop]
    rw [consumeLoop_snd _ n _ (i + 1)]
    funext k
    by_cases h1 : i ≤ k ∧ k < i + (n + 1)
    · rw [if_pos h1]
      by_cases h2 : i + 1 ≤ k ∧ k < i + 1 + n
      · rw [if_pos h2]
      · rw [if_neg h2, show k = i by omega, Function.update_same]
    · rw [if_neg h1, if_neg (by omega), Function.update_noteq (by omega) _ _]

theorem byteOf_min_form (acc : ℚ) :
    byteOf acc = (⌊(255.99998 : ℚ) * min |acc| 1⌋).toNat := by
  by_cases h : |acc| < 1
  · simp [byteOf, h, min_eq_left h.le]
  · simp [byteOf, h, min_eq_right (not_lt.mp h)]

theorem byteOf_abs_one (acc : ℚ) (h : |acc| = 1) : byteOf acc = 255 := by
  simp only [byteOf, h]
  norm_num
  decide

/-- C3: both finalizers run a single row-major running sum over the first
`w * h` delta cells and emit, for pixel `k`, the byte
`trunc(255.99998 * min(|acc|, 1.0))`; an `acc` with `|acc|` exactly `1.0`
yields `255` (never `256`), and both returned vectors have length exactly
`w * h`. -/
theorem finalize_bytes (r : Raster) (k : ℕ) (hk : k < r.w * r.h) :
    r.get_bitmap.length = r.w * r.h ∧
    (r.consume_bitmap.1).length = r.w * r.h ∧
    r.consume_bitmap.1 = r.get_bitmap ∧
    r.get_bitmap.getD k 0 =
      (⌊(255.99998 : ℚ) * min |∑ j in Finset.range (k + 1), r.a j| 1⌋).toNat ∧
    (∀ acc : ℚ, |acc| = 1 → byteOf acc = 255) := by
  have hget : r.get_bitmap = bitmapLoop r.a (r.w * r.h) 0 0 := rfl
  have hcon : r.consume_bitmap.1 = bitmapLoop r.a (r.w * r.h) 0 0 :=
    consumeLoop_fst r.a (r.w * r.h) 0 0
  refine ⟨?_, ?_, ?_, ?_, byteOf_abs_one⟩
  · rw [hget, bitmapLoop_length]
  · rw [hcon, bitmapLoop_length]
  · rw [hcon, hget]
  · rw [hget, bitmapLoop_getD r.a (r.w * r.h) 0 0 k hk, ← byteOf_min_form]
    congr 1
    simp

theorem finalize_bytes_witness :
    (Raster.new 2 2).get_bitmap.getD 0 0 =
      (⌊(255.99998 : ℚ) * min |∑ j in Finset.range (0 + 1), (Raster.new 2 2).a j| 1⌋).toNat ∧
    byteOf 1 = 255 := by
  have h := finalize_bytes (Raster.new 2 2) 0 (by decide)
  exact ⟨h.2.2.2.1, h.2.2.2.2 1 (by norm_num)⟩

/-- C4: `consume_bitmap` zeroes each of the first `w * h` cells as it reads
them, so a second consecutive call with no intervening draw returns `w * h`
zero bytes. -/
theorem consume_bitmap_twice (r : Raster) :
    ((r.consume_bitmap.2).consume_bitmap).1 = List.replicate (r.w * r.h) 0 := by
  have hfst : ((r.consume_bitmap.2).consume_bitmap).1 =
      bitmapLoop (r.consume_bitmap.2).a (r.w * r.h) 0 0 :=
    consumeLoop_fst (r.consume_bitmap.2).a (r.w * r.h) 0 0
  rw [hfst]
  apply bitmapLoop_zero
  intro j hj1 hj2
  have ha : (r.consume_bitmap.2).a = (consumeLoop r.a (r.w * r.h) 0 0).2 := rfl
  rw [ha, consumeLoop_snd]
  exact if_pos ⟨hj1, hj2⟩

/-- C10: `consume_bitmap` zeroes exactly the first `w * h` cells — the
trailing padding cells keep whatever earlier draws spilled into them — and
after a successful `refit` to larger logical dimensions (within capacity)
those stale padding deltas lie inside the new logical region and are read by
the next finalize pass. -/
theorem consume_padding_stale (r : Raster) (w2 h2 : ℕ) (hcap : w2 * h2 < r.len) :
    (r.consume_bitmap.2).a = (fun k => if k < r.w * r.h then 0 else r.a k) ∧
    (r.consume_bitmap.2).refit w2 h2 =
      some { w := w2, h := h2, len := r.len, a := (r.consume_bitmap.2).a } ∧
    (∀ i, i < w2 * h2 →
      ({ w := w2, h := h2, len := r.len, a := (r.consume_bitmap.2).a } : Raster).get_bitmap.getD i 0 =
        byteOf (∑ j in Finset.range (i + 1), if j < r.w * r.h then 0 else r.a j)) := by
  have ha : (r.consume_bitmap.2).a = fun k => if k < r.w * r.h then 0 else r.a k := by
    show (consumeLoop r.a (r.w * r.h) 0 0).2 = _
    rw [consumeLoop_snd]
    funext k
    by_cases hk : k < r.w * r.h
    · rw [if_pos ⟨Nat.zero_le k, by omega⟩, if_pos hk]
    · rw [if_neg (by omega), if_neg hk]
  refine ⟨ha, ?_, ?_⟩
  · have hlen : (r.consume_bitmap.2).len = r.len := rfl
    simp only [Raster.refit, hlen]
    rw [if_neg (by omega)]
  · intro i hi
    have hg : ({ w := w2, h := h2, len := r.len, a := (r.consume_bitmap.2).a } : Raster).get_bitmap
        = bitmapLoop (r.consume_bitmap.2).a (w2 * h2) 0 0 := rfl
    rw [hg, bitmapLoop_getD _ (w2 * h2) 0 0 i hi, ha]
    congr 1
    simp

theorem consume_padding_stale_witness :
    ((Raster.new 1 1).consume_bitmap.2).a =
      (fun k => if k < (Raster.new 1 1).w * (Raster.new 1 1).h then 0 else (Raster.new 1 1).a k) ∧
    ((Raster.new 1 1).consume_bitmap.2).refit 2 2 =
      some { w := 2, h := 2, len := (Raster.new 1 1).len, a := ((Raster.new 1 1).consume_bitmap.2).a } ∧
    ({ w := 2, h := 2, len := (Raster.new 1 1).len, a := ((Raster.new 1 1).consume_bitmap.2).a } : Raster).get_bitmap.getD 1 0 =
      byteOf (∑ j in Finset.range (1 + 1),
        if j < (Raster.new 1 1).w * (Raster.new 1 1).h then 0 else (Raster.new 1 1).a j) := by
  have h := consume_padding_stale (Raster.new 1 1) 2 2 (by decide)
  exact ⟨h.1, h.2.1, h.2.2 1 (by decide)⟩

/-! ## Additive-shift structure of the draw operations -/

theorem add_w (r : Raster) (i : ℤ) (v : ℚ) : (r.add i v).w = r.w := by
  unfold Raster.add
  split <;> rfl

theorem add_h (r : Raster) (i : ℤ) (v : ℚ) : (r.add i v).h = r.h := by
  unfold Raster.add
  split <;> rfl

theorem add_len (r : Raster) (i : ℤ) (v : ℚ) : (r.add i v).len = r.len := by
  unfold Raster.add
  split <;> rfl

theorem add_a (r : Raster) (i : ℤ) (v : ℚ) (k : ℕ) :
    (r.add i v).a k = r.a k + (if 0 ≤ i ∧ i.toNat = k ∧ k < r.len then v else 0) := by
  unfold Raster.add
  by_cases hc : 0 ≤ i ∧ i.toNat < r.len
  · rw [if_pos hc]
    show Function.update r.a i.toNat (r.a i.toNat + v) k = _
    by_cases hk : i.toNat = k
    · subst hk
      rw [Function.update_same, if_pos ⟨hc.1, rfl, hc.2⟩]
    · rw [Function.update_noteq (fun he => hk he.symm), if_neg (fun hcon => hk hcon.2.1),
        add_zero]
  · rw [if_neg hc]
    show r.a k = _
    rw [if_neg (fun hcon => hc ⟨hcon.1, by omega⟩), add_zero]

/-- The total contribution a list of `add` calls makes to cell `k` of a
buffer of length `len`. -/
def writesDelta (len : ℕ) (ws : List (ℤ × ℚ)) (k : ℕ) : ℚ :=
  (ws.map (fun iv => if 0 ≤ iv.1 ∧ iv.1.toNat = k ∧ k < len then iv.2 else 0)).sum

theorem foldl_add_fields (ws : List (ℤ × ℚ)) : ∀ (r : Raster),
    (ws.foldl (fun s iv => s.add iv.1 iv.2) r).w = r.w ∧
    (ws.foldl (fun s iv => s.add iv.1 iv.2) r).h = r.h ∧
    (ws.foldl (fun s iv => s.add iv.1 iv.2) r).len = r.len ∧
    ∀ k, (ws.foldl (fun s iv => s.add iv.1 iv.2) r).a k = r.a k + writesDelta r.len ws k := by
  induction ws with
  | nil =>
    intro r
    exact ⟨rfl, rfl, rfl, fun k => by simp [writesDelta]⟩
  | cons iv tl ih =>
    intro r
    have htl := ih (r.add iv.1 iv.2)
    refine ⟨?_, ?_, ?_, ?_⟩
    · rw [List.foldl_cons, htl.1, add_w]
    · rw [List.foldl_cons, htl.2.1, add_h]
    · rw [List.foldl_cons, htl.2.2.1, add_len]
    · intro k
      rw [List.foldl_cons, htl.2.2.2 k, add_a, add_len]
      simp only [writesDelta, List.map_cons, List.sum_cons]
      ring

/-- An operation on rasters is a "shift" when it preserves the dimensions and
adds to the buffer a delta depending only on `(w, h, len)`, not on the buffer
contents.  Every draw operation is a shift, which is what makes draw order
irrelevant. -/
def IsShift (f : Raster → Raster) : Prop :=
  ∃ δ : ℕ → ℕ → ℕ → ℕ → ℚ, ∀ r : Raster,
    (f r).w = r.w ∧ (f r).h = r.h ∧ (f r).len = r.len ∧
    ∀ k, (f r).a k = r.a k + δ r.w r.h r.len k

theorem isShift_draw_line (p0 p1 : Point) : IsShift (fun r => r.draw_line p0 p1) :=
  ⟨fun w h len k => writesDelta len (lineWrites w h p0 p1) k,
   fun r => foldl_add_fields (lineWrites r.w r.h p0 p1) r⟩

theorem isShift_id : IsShift id :=
  ⟨fun _ _ _ _ => 0, fun _ => ⟨rfl, rfl, rfl, fun _ => (add_zero _).symm⟩⟩

theorem isShift_comp (f g : Raster → Raster) (hf : IsShift f) (hg : IsShift g) :
    IsShift (fun r => g (f r)) := by
  obtain ⟨df, Hf⟩ := hf
  obtain ⟨dg, Hg⟩ := hg
  refine ⟨fun w h len k => df w h len k + dg w h len k, fun r => ?_⟩
  refine ⟨?_, ?_, ?_, fun k => ?_⟩
  · rw [(Hg (f r)).1, (Hf r).1]
  · rw [(Hg (f r)).2.1, (Hf r).2.1]
  · rw [(Hg (f r)).2.2.1, (Hf r).2.2.1]
  · rw [(Hg (f r)).2.2.2 k, (Hf r).2.2.2 k, (Hf r).1, (Hf r).2.1, (Hf r).2.2.1, add_assoc]

theorem shift_comm (f g : Raster → Raster) (hf : IsShift f) (hg : IsShift g) (r : Raster) :
    f (g r) = g (f r) := by
  obtain ⟨df, Hf⟩ := hf
  obtain ⟨dg, Hg⟩ := hg
  refine Raster.ext ?_ ?_ ?_ ?_
  · rw [(Hf (g r)).1, (Hg r).1, (Hg (f r)).1, (Hf r).1]
  · rw [(Hf (g r)).2.1, (Hg r).2.1, (Hg (f r)).2.1, (Hf r).2.1]
  · rw [(Hf (g r)).2.2.1, (Hg r).2.2.1, (Hg (f r)).2.2.1, (Hf r).2.2.1]
  · funext k
    rw [(Hf (g r)).2.2.2 k, (Hg r).2.2.2 k, (Hg (f r)).2.2.2 k, (Hf r).2.2.2 k,
      (Hg r).1, (Hg r).2.1, (Hg r).2.2.1, (Hf r).1, (Hf r).2.1, (Hf r).2.2.1]
    ring

theorem curveLoop_fst_const (p0 p1 p2 : Point) (nr : ℚ) :
    ∀ (k : ℕ) (t : ℚ) (p : Point) (r r2 : Raster),
      (curveLoop p0 p1 p2 nr k t p r).1 = (curveLoop p0 p1 p2 nr k t p r2).1
  | 0, _, _, _, _ => rfl
  | k + 1, t, p, r, r2 => by
    simp only [curveLoop]
    exact curveLoop_fst_const p0 p1 p2 nr k _ _ _ _

theorem curveLoop_snd_shift (p0 p1 p2 : Point) (nr : ℚ) :
    ∀ (k : ℕ) (t : ℚ) (p : Point), IsShift (fun r => (curveLoop p0 p1 p2 nr k t p r).2)
  | 0, _, _ => isShift_id
  | k + 1, t, p => by
    simp only [curveLoop]
    exact isShift_comp _ _ (isShift_draw_line p _)
      (curveLoop_snd_shift p0 p1 p2 nr k _ _)

theorem isShift_draw_curve (p0 p1 p2 : Point) : IsShift (fun r => r.draw_curve p0 p1 p2) := by
  by_cases hdev : (p0.x - 2 * p1.x + p2.x) * (p0.x - 2 * p1.x + p2.x) +
      (p0.y - 2 * p1.y + p2.y) * (p0.y - 2 * p1.y + p2.y) < (0.333 : ℚ)
  · have hfun : (fun r : Raster => r.draw_curve p0 p1 p2) = fun r => r.draw_line p0 p2 := by
      funext r
      simp only [Raster.draw_curve]
      rw [if_pos hdev]
    rw [hfun]
    exact isShift_draw_line p0 p2
  · have hfun : (fun r : Raster => r.draw_curve p0 p1 p2) = fun r =>
        ((curveLoop p0 p1 p2
            ((1 + floorQuarticRoot (3 * ((p0.x - 2 * p1.x + p2.x) * (p0.x - 2 * p1.x + p2.x) +
              (p0.y - 2 * p1.y + p2.y) * (p0.y - 2 * p1.y + p2.y))) : ℕ) : ℚ)⁻¹
            (1 + floorQuarticRoot (3 * ((p0.x - 2 * p1.x + p2.x) * (p0.x - 2 * p1.x + p2.x) +
              (p0.y - 2 * p1.y + p2.y) * (p0.y - 2 * p1.y + p2.y))) - 1) 0 p0 r).2).draw_line
          ((curveLoop p0 p1 p2
            ((1 + floorQuarticRoot (3 * ((p0.x - 2 * p1.x + p2.x) * (p0.x - 2 * p1.x + p2.x) +
              (p0.y - 2 * p1.y + p2.y) * (p0.y - 2 * p1.y + p2.y))) : ℕ) : ℚ)⁻¹
            (1 + floorQuarticRoot (3 * ((p0.x - 2 * p1.x + p2.x) * (p0.x - 2 * p1.x + p2.x) +
              (p0.y - 2 * p1.y + p2.y) * (p0.y - 2 * p1.y + p2.y))) - 1) 0 p0 (Raster.new 0 0)).1) p2 := by
      funext r
      simp only [Raster.draw_curve]
      rw [if_neg hdev, curveLoop_fst_const p0 p1 p2 _ _ 0 p0 r (Raster.new 0 0)]
    rw [hfun]
    exact isShift_comp _ _ (curveLoop_snd_shift p0 p1 p2 _ _ 0 p0) (isShift_draw_line _ p2)

theorem isShift_draw (g : Geometry) : IsShift (fun r => r.draw g) := by
  cases g with
  | line a b => exact isShift_draw_line a b
  | curve a b c => exact isShift_draw_curve a b c

/-- C9: drawing two geometries in either order yields the same final raster
(and hence the same `get_bitmap` result): each draw adds, into the fixed
dimensions, a delta that does not depend on the buffer contents, and
rational addition is commutative. -/
theorem draw_comm (r : Raster) (g1 g2 : Geometry) :
    (r.draw g1).draw g2 = (r.draw g2).draw g1 ∧
    ((r.draw g1).draw g2).get_bitmap = ((r.draw g2).draw g1).get_bitmap := by
  have h : (r.draw g1).draw g2 = (r.draw g2).draw g1 :=
    shift_comm (fun s => s.draw g2) (fun s => s.draw g1)
      (isShift_draw g2) (isShift_draw g1) r
  exact ⟨h, by rw [h]⟩

/-! ## Curve subdivision (segment-count and segment-endpoint structure) -/

/-- Quadratic Bézier evaluation by nested linear interpolation, exactly the
expression `Point::lerp(t, &Point::lerp(t, p0, p1), &Point::lerp(t, p1, p2))`
computed inside the subdivision loop of `Raster::draw_curve`. -/
def bez (p0 p1 p2 : Point) (t : ℚ) : Point :=
  Point.lerp t (Point.lerp t p0 p1) (Point.lerp t p1 p2)

/-- The segment list the subdivision claim describes: `n` straight segments,
segment `k` running from the Bézier evaluation at `t = k/n` to the one at
`t = (k+1)/n`, except that the final segment ends exactly at `p2` instead of
at the interpolated point for `t = 1`. -/
def curveSegs (p0 p1 p2 : Point) (n : ℕ) : List (Point × Point) :=
  (List.range n).map (fun (k : ℕ) =>
    (bez p0 p1 p2 ((k : ℚ) / (n : ℚ)),
     if k + 1 = n then p2 else bez p0 p1 p2 (((k + 1 : ℕ) : ℚ) / (n : ℚ))))

theorem bez_zero (p0 p1 p2 : Point) : bez p0 p1 p2 0 = p0 := by
  simp [bez, Point.lerp]

theorem natFloor_sqrt (x : ℝ) (hx : 0 ≤ x) : ⌊Real.sqrt x⌋₊ = Nat.sqrt ⌊x⌋₊ := by
  rw [Nat.floor_eq_iff (Real.sqrt_nonneg x)]
  constructor
  · exact le_trans Real.nat_sqrt_le_real_sqrt (Real.sqrt_le_sqrt (Nat.floor_le hx))
  · rw [Real.sqrt_lt' (by positivity)]
    have h2 : ⌊x⌋₊ + 1 ≤ (Nat.sqrt ⌊x⌋₊ + 1) ^ 2 := Nat.succ_le_of_lt (Nat.lt_succ_sqrt' ⌊x⌋₊)
    calc x < (⌊x⌋₊ : ℝ) + 1 := Nat.lt_floor_add_one x
      _ ≤ ((Nat.sqrt ⌊x⌋₊ : ℝ) + 1) ^ 2 := by exact_mod_cast h2

theorem natFloor_sqrt_sqrt (q : ℚ) (hq : 0 ≤ q) :
    ⌊Real.sqrt (Real.sqrt ((q : ℝ)))⌋₊ = floorQuarticRoot q := by
  have hq2 : (0 : ℝ) ≤ (q : ℝ) := by exact_mod_cast hq
  rw [natFloor_sqrt _ (Real.sqrt_nonneg _), natFloor_sqrt _ hq2]
  have hfl : ⌊(q : ℝ)⌋₊ = ⌊q⌋₊ := by
    rw [← Int.floor_toNat, ← Int.floor_toNat, Rat.floor_cast]
  rw [floorQuarticRoot, hfl]

theorem curveLoop_spec (p0 p1 p2 : Point) (n : ℕ) :
    ∀ (k m : ℕ) (r : Raster),
      curveLoop p0 p1 p2 ((n : ℚ))⁻¹ k (((m : ℕ) : ℚ) * ((n : ℚ))⁻¹)
          (bez p0 p1 p2 (((m : ℕ) : ℚ) / (n : ℚ))) r =
        (bez p0 p1 p2 (((m + k : ℕ) : ℚ) / (n : ℚ)),
         ((List.range k).map (fun j =>
             (bez p0 p1 p2 (((m + j : ℕ) : ℚ) / (n : ℚ)),
              bez p0 p1 p2 (((m + j + 1 : ℕ) : ℚ) / (n : ℚ))))).foldl
           (fun s pq => s.draw_line pq.1 pq.2) r)
  | 0, m, r => by simp [curveLoop]
  | k + 1, m, r => by
    have ht : ((m : ℕ) : ℚ) * ((n : ℚ))⁻¹ + ((n : ℚ))⁻¹ = (((m + 1 : ℕ) : ℚ)) * ((n : ℚ))⁻¹ := by
      push_cast
      ring
    have hb : Point.lerp ((((m + 1 : ℕ) : ℚ)) * ((n : ℚ))⁻¹)
        (Point.lerp ((((m + 1 : ℕ) : ℚ)) * ((n : ℚ))⁻¹) p0 p1)
        (Point.lerp ((((m + 1 : ℕ) : ℚ)) * ((n : ℚ))⁻¹) p1 p2) =
        bez p0 p1 p2 ((((m + 1 : ℕ) : ℚ)) / (n : ℚ)) := by
      rw [bez, div_eq_mul_inv]
    simp only [curveLoop]
    rw [ht, hb, curveLoop_spec p0 p1 p2 n k (m + 1)
      (r.draw_line (bez p0 p1 p2 (((m : ℕ) : ℚ) / (n : ℚ)))
        (bez p0 p1 p2 ((((m + 1 : ℕ) : ℚ)) / (n : ℚ))))]
    rw [Prod.mk.injEq]
    constructor
    · rw [show m + 1 + k = m + (k + 1) by omega]
    · rw [List.range_succ_eq_map, List.map_cons, List.foldl_cons, List.map_map]
      congr 1
      · apply List.map_congr_left
        intro j hj
        simp only [Function.comp_apply, Nat.succ_eq_add_one]
        rw [show m + 1 + j = m + (j + 1) by omega]

theorem curveSegs_decomp (p0 p1 p2 : Point) (m : ℕ) :
    curveSegs p0 p1 p2 (m + 1) =
      ((List.range m).map (fun (j : ℕ) =>
        (bez p0 p1 p2 ((j : ℚ) / ((m + 1 : ℕ) : ℚ)),
         bez p0 p1 p2 (((j + 1 : ℕ) : ℚ) / ((m + 1 : ℕ) : ℚ))))) ++
      [(bez p0 p1 p2 (((m : ℕ) : ℚ) / ((m + 1 : ℕ) : ℚ)), p2)] := by
  unfold curveSegs
  rw [List.range_succ, List.map_append, List.map_singleton]
  congr 1
  · apply List.map_congr_left
    intro j hj
    have hjm := List.mem_range.mp hj
    rw [if_neg (by omega)]
  · rw [if_pos rfl]

/-- C5: for a curve whose squared deviation is at least `0.333`, `draw_curve`
draws exactly `n = 1 + floor(sqrt(sqrt(3.0 * devsq)))` straight segments: the
first `n - 1` connect successive quadratic Bézier evaluations (nested linear
interpolation) at parameters `t = k/n`, and the final segment ends exactly at
`p2` rather than at the interpolated point for `t = 1` (see `curveSegs`). -/
theorem draw_curve_subdivision (r : Raster) (p0 p1 p2 : Point)
    (hdev : ¬ ((p0.x - 2 * p1.x + p2.x) * (p0.x - 2 * p1.x + p2.x) +
        (p0.y - 2 * p1.y + p2.y) * (p0.y - 2 * p1.y + p2.y) < (0.333 : ℚ))) :
    ∃ n : ℕ,
      n = 1 + ⌊Real.sqrt (Real.sqrt ((((3 : ℚ) *
          ((p0.x - 2 * p1.x + p2.x) * (p0.x - 2 * p1.x + p2.x) +
            (p0.y - 2 * p1.y + p2.y) * (p0.y - 2 * p1.y + p2.y)) : ℚ) : ℝ)))⌋₊ ∧
      (curveSegs p0 p1 p2 n).length = n ∧
      r.draw_curve p0 p1 p2 =
        (curveSegs p0 p1 p2 n).foldl (fun s pq => s.draw_line pq.1 pq.2) r := by
  have hq : (0 : ℚ) ≤ 3 * ((p0.x - 2 * p1.x + p2.x) * (p0.x - 2 * p1.x + p2.x) +
      (p0.y - 2 * p1.y + p2.y) * (p0.y - 2 * p1.y + p2.y)) := by
    nlinarith [mul_self_nonneg (p0.x - 2 * p1.x + p2.x), mul_self_nonneg (p0.y - 2 * p1.y + p2.y)]
  refine ⟨1 + floorQuarticRoot (3 * ((p0.x - 2 * p1.x + p2.x) * (p0.x - 2 * p1.x + p2.x) +
      (p0.y - 2 * p1.y + p2.y) * (p0.y - 2 * p1.y + p2.y))), ?_, ?_, ?_⟩
  · rw [natFloor_sqrt_sqrt _ hq]
  · simp [curveSegs]
  · simp only [Raster.draw_curve]
    rw [if_neg hdev,
      Nat.add_comm 1 (floorQuarticRoot (3 * ((p0.x - 2 * p1.x + p2.x) * (p0.x - 2 * p1.x + p2.x) +
        (p0.y - 2 * p1.y + p2.y) * (p0.y - 2 * p1.y + p2.y))))]
    simp only [Nat.add_sub_cancel]
    have hloop := curveLoop_spec p0 p1 p2
      (floorQuarticRoot (3 * ((p0.x - 2 * p1.x + p2.x) * (p0.x - 2 * p1.x + p2.x) +
        (p0.y - 2 * p1.y + p2.y) * (p0.y - 2 * p1.y + p2.y))) + 1)
      (floorQuarticRoot (3 * ((p0.x - 2 * p1.x + p2.x) * (p0.x - 2 * p1.x + p2.x) +
        (p0.y - 2 * p1.y + p2.y) * (p0.y - 2 * p1.y + p2.y)))) 0 r
    simp only [Nat.cast_zero, zero_mul, zero_div, bez_zero, Nat.zero_add] at hloop
    rw [hloop, curveSegs_decomp p0 p1 p2
      (floorQuarticRoot (3 * ((p0.x - 2 * p1.x + p2.x) * (p0.x - 2 * p1.x + p2.x) +
        (p0.y - 2 * p1.y + p2.y) * (p0.y - 2 * p1.y + p2.y)))),
      List.foldl_append]
    rfl

theorem draw_curve_subdivision_witness :
    ∃ n : ℕ,
      n = 1 + ⌊Real.sqrt (Real.sqrt ((((3 : ℚ) *
          ((((0 : ℚ)) - 2 * 1 + 2) * (((0 : ℚ)) - 2 * 1 + 2) +
            (((0 : ℚ)) - 2 * 1 + 0) * (((0 : ℚ)) - 2 * 1 + 0)) : ℚ) : ℝ)))⌋₊ ∧
      (curveSegs { x := 0, y := 0 } { x := 1, y := 1 } { x := 2, y := 0 } n).length = n ∧
      (Raster.new 4 4).draw_curve { x := 0, y := 0 } { x := 1, y := 1 } { x := 2, y := 0 } =
        (curveSegs { x := 0, y := 0 } { x := 1, y := 1 } { x := 2, y := 0 } n).foldl
          (fun s pq => s.draw_line pq.1 pq.2) (Raster.new 4 4) :=
  draw_curve_subdivision (Raster.new 4 4) { x := 0, y := 0 } { x := 1, y := 1 } { x := 2, y := 0 }
    (by norm_num)

/-! ## Bounds of the indices written by draw_line (safety) -/

/-- The x-coordinate of the drawn segment at height `c`, as tracked by the
running variable `x` of the scanline loop. -/
def xOnLine (px0 px1 py0 py1 c : ℚ) : ℚ :=
  px0 + (px1 - px0) / (py1 - py0) * (c - py0)

theorem xOnLine_bounds (w : ℕ) (px0 px1 py0 py1 c : ℚ) (h01 : py0 < py1)
    (ha : 0 ≤ px0) (hb : px0 ≤ (w : ℚ)) (hc : 0 ≤ px1) (hd : px1 ≤ (w : ℚ))
    (hc0 : py0 ≤ c) (hc1 : c ≤ py1) :
    0 ≤ xOnLine px0 px1 py0 py1 c ∧ xOnLine px0 px1 py0 py1 c ≤ (w : ℚ) := by
  have hD : 0 < py1 - py0 := sub_pos.2 h01
  have key : xOnLine px0 px1 py0 py1 c =
      (px0 * (py1 - c) + px1 * (c - py0)) / (py1 - py0) := by
    unfold xOnLine
    field_simp
    ring
  rw [key]
  constructor
  · apply div_nonneg _ hD.le
    nlinarith [mul_nonneg ha (sub_nonneg.2 hc1), mul_nonneg hc (sub_nonneg.2 hc0)]
  · rw [div_le_iff₀ hD]
    nlinarith [mul_le_mul_of_nonneg_right hb (sub_nonneg.2 hc1),
      mul_le_mul_of_nonneg_right hd (sub_nonneg.2 hc0)]

theorem rowWritesCore_bounds (w h y : ℕ) (d x xnext x0 x1 : ℚ) (hy : y < h)
    (h0 : 0 ≤ x0) (h01 : x0 ≤ x1) (h1 : x1 ≤ (w : ℚ)) :
    ∀ iv ∈ rowWritesCore ((y * w : ℕ) : ℤ) d x xnext x0 x1,
      0 ≤ iv.1 ∧ iv.1 < ((w * h : ℕ) : ℤ) + 4 := by
  intro iv hiv
  obtain ⟨i, v⟩ := iv
  have hf0 : (0 : ℤ) ≤ ⌊x0⌋ := Int.le_floor.mpr (by exact_mod_cast h0)
  have hfw : ⌊x0⌋ ≤ (w : ℤ) := by
    have h2 := Int.floor_le_floor (le_trans h01 h1)
    rwa [Int.floor_natCast] at h2
  have hcw : ⌈x1⌉ ≤ (w : ℤ) := Int.ceil_le.mpr h1
  have hfc : ⌊x0⌋ ≤ ⌈x1⌉ := le_trans (Int.floor_le_floor h01) (Int.floor_le_ceil x1)
  have hlsw : ((y * w : ℕ) : ℤ) + (w : ℤ) ≤ ((w * h : ℕ) : ℤ) := by
    push_cast
    have hy1 : (y : ℤ) + 1 ≤ (h : ℤ) := by exact_mod_cast hy
    nlinarith [mul_le_mul_of_nonneg_right hy1 (show (0 : ℤ) ≤ (w : ℤ) from Int.natCast_nonneg w)]
  simp only [rowWritesCore] at hiv
  by_cases hbr : (⌈x1⌉ : ℤ) ≤ ⌊x0⌋ + 1
  · rw [if_pos hbr] at hiv
    simp only [List.mem_cons, List.not_mem_nil, or_false, Prod.mk.injEq] at hiv
    rcases hiv with ⟨hieq, _⟩ | ⟨hieq, _⟩ <;> subst hieq <;> exact ⟨by omega, by omega⟩
  · rw [if_neg hbr] at hiv
    by_cases h2br : (⌈x1⌉ : ℤ) = ⌊x0⌋ + 2
    · rw [if_pos h2br] at hiv
      simp only [List.cons_append, List.nil_append, List.mem_cons, List.not_mem_nil,
        or_false, Prod.mk.injEq] at hiv
      rcases hiv with ⟨hieq, _⟩ | ⟨hieq, _⟩ | ⟨hieq, _⟩ <;> subst hieq <;>
        exact ⟨by omega, by omega⟩
    · rw [if_neg h2br] at hiv
      rcases List.mem_append.mp hiv with hmid | hlast
      · rcases List.mem_cons.mp hmid with heq | hmid2
        · have hieq : i = ((y * w : ℕ) : ℤ) + ⌊x0⌋ := congrArg Prod.fst heq
          exact ⟨by omega, by omega⟩
        · rcases List.mem_append.mp hmid2 with hmid3 | hlast2
          · rcases List.mem_cons.mp hmid3 with heq | hmap
            · have hieq : i = ((y * w : ℕ) : ℤ) + ⌊x0⌋ + 1 := congrArg Prod.fst heq
              exact ⟨by omega, by omega⟩
            · obtain ⟨k, hk, heq⟩ := List.mem_map.mp hmap
              have hk2 := List.mem_range.mp hk
              have hieq : ((y * w : ℕ) : ℤ) + ⌊x0⌋ + 2 + (k : ℤ) = i := congrArg Prod.fst heq
              exact ⟨by omega, by omega⟩
          · have heq := List.mem_singleton.mp hlast2
            have hieq : i = ((y * w : ℕ) : ℤ) + ⌈x1⌉ - 1 := congrArg Prod.fst heq
            exact ⟨by omega, by omega⟩
      · have heq := List.mem_singleton.mp hlast
        have hieq : i = ((y * w : ℕ) : ℤ) + ⌈x1⌉ := congrArg Prod.fst heq
        exact ⟨by omega, by omega⟩

theorem rowWrites_bounds (w h y : ℕ) (d x xnext : ℚ) (hy : y < h)
    (ha : 0 ≤ x) (hb : x ≤ (w : ℚ)) (hc : 0 ≤ xnext) (hd : xnext ≤ (w : ℚ)) :
    ∀ iv ∈ rowWrites ((y * w : ℕ) : ℤ) d x xnext,
      0 ≤ iv.1 ∧ iv.1 < ((w * h : ℕ) : ℤ) + 4 := by
  intro iv hiv
  unfold rowWrites at hiv
  by_cases hxx : x < xnext
  · rw [if_pos hxx, if_pos hxx] at hiv
    exact rowWritesCore_bounds w h y d x xnext x xnext hy ha hxx.le hd iv hiv
  · rw [if_neg hxx, if_neg hxx] at hiv
    exact rowWritesCore_bounds w h y d x xnext xnext x hy hc (not_lt.mp hxx) hb iv hiv

theorem lineLoop_bounds (w h : ℕ) (px0 px1 py0 py1 dir : ℚ)
    (hpy : py0 < py1) (ha : 0 ≤ px0) (hb : px0 ≤ (w : ℚ)) (hc : 0 ≤ px1) (hd : px1 ≤ (w : ℚ)) :
    ∀ (n y : ℕ) (x : ℚ),
      y + n ≤ min h ((⌈py1⌉).toNat) →
      py0 ≤ (y : ℚ) + 1 →
      x = xOnLine px0 px1 py0 py1 (max (y : ℚ) py0) →
      ∀ iv ∈ lineLoop w dir ((px1 - px0) / (py1 - py0)) py0 py1 n y x,
        0 ≤ iv.1 ∧ iv.1 < ((w * h : ℕ) : ℤ) + 4 := by
  intro n
  induction n with
  | zero =>
    intro y x _ _ _ iv hiv
    simp [lineLoop] at hiv
  | succ n ih =>
    intro y x hfuel hI2 hI3 iv hiv
    have hyh : y < h := by
      have h1 := le_trans hfuel (min_le_left _ _)
      omega
    have hyc : y < (⌈py1⌉).toNat := by
      have h2 := le_trans hfuel (min_le_right _ _)
      omega
    have hypy1 : (y : ℚ) < py1 := by
      have h3 : ((y : ℕ) : ℤ) < ⌈py1⌉ := Int.lt_toNat.mp hyc
      have h4 := Int.lt_ceil.mp h3
      exact_mod_cast h4
    have hM0 : py0 ≤ max (y : ℚ) py0 := le_max_right _ _
    have hM1 : max (y : ℚ) py0 ≤ py1 := max_le hypy1.le hpy.le
    have hxb := xOnLine_bounds w px0 px1 py0 py1 (max (y : ℚ) py0) hpy ha hb hc hd hM0 hM1
    have hM'0 : py0 ≤ min ((y : ℚ) + 1) py1 := le_min hI2 hpy.le
    have hM'1 : min ((y : ℚ) + 1) py1 ≤ py1 := min_le_right _ _
    have hxnb := xOnLine_bounds w px0 px1 py0 py1 (min ((y : ℚ) + 1) py1) hpy ha hb hc hd hM'0 hM'1
    have hxnext : x + (px1 - px0) / (py1 - py0) *
        (min ((y + 1 : ℕ) : ℚ) py1 - max ((y : ℕ) : ℚ) py0) =
        xOnLine px0 px1 py0 py1 (min ((y : ℚ) + 1) py1) := by
      rw [hI3]
      unfold xOnLine
      push_cast
      ring
    simp only [lineLoop, List.mem_append] at hiv
    rcases hiv with hrow | hrest
    · refine rowWrites_bounds w h y _ x _ hyh ?_ ?_ ?_ ?_ iv hrow
      · rw [hI3]; exact hxb.1
      · rw [hI3]; exact hxb.2
      · rw [hxnext]; exact hxnb.1
      · rw [hxnext]; exact hxnb.2
    · rcases Nat.eq_zero_or_pos n with hn0 | hnpos
      · subst hn0
        simp [lineLoop] at hrest
      · have hy1c : y + 1 < (⌈py1⌉).toNat := by
          have h5 := le_trans hfuel (min_le_right _ _)
          omega
        have hy1py : ((y : ℚ) + 1) < py1 := by
          have h6 : ((y + 1 : ℕ) : ℤ) < ⌈py1⌉ := Int.lt_toNat.mp hy1c
          have h7 := Int.lt_ceil.mp h6
          push_cast at h7
          exact_mod_cast h7
        refine ih (y + 1) _ ?_ ?_ ?_ iv hrest
        · omega
        · push_cast
          linarith
        · rw [hxnext, min_eq_left hy1py.le]
          have hcast : ((y + 1 : ℕ) : ℚ) = (y : ℚ) + 1 := by push_cast; ring
          rw [hcast, max_eq_left hI2]

theorem lineWrites_entry (w h : ℕ) (q0 q1 : Point) (hq : q0.y < q1.y)
    (ha : 0 ≤ q0.x) (hb : q0.x ≤ (w : ℚ)) (hc : 0 ≤ q1.x) (hd : q1.x ≤ (w : ℚ)) (dir : ℚ) :
    ∀ iv ∈ lineLoop w dir ((q1.x - q0.x) / (q1.y - q0.y)) q0.y q1.y
        (min h ((⌈q1.y⌉).toNat) - (⌊q0.y⌋).toNat) ((⌊q0.y⌋).toNat)
        (if q0.y < 0 then q0.x - q0.y * ((q1.x - q0.x) / (q1.y - q0.y)) else q0.x),
      0 ≤ iv.1 ∧ iv.1 < ((w * h : ℕ) : ℤ) + 4 := by
  intro iv hiv
  by_cases hend : min h ((⌈q1.y⌉).toNat) ≤ (⌊q0.y⌋).toNat
  · rw [Nat.sub_eq_zero_of_le hend] at hiv
    simp [lineLoop] at hiv
  · push_neg at hend
    refine lineLoop_bounds w h q0.x q1.x q0.y q1.y dir hq ha hb hc hd
      (min h ((⌈q1.y⌉).toNat) - (⌊q0.y⌋).toNat) ((⌊q0.y⌋).toNat) _ ?_ ?_ ?_ iv hiv
    · omega
    · have hfl : (⌊q0.y⌋ : ℚ) ≤ (((⌊q0.y⌋).toNat : ℕ) : ℚ) := by
        exact_mod_cast Int.self_le_toNat ⌊q0.y⌋
      have hlt := Int.lt_floor_add_one q0.y
      push_cast at hlt ⊢
      linarith
    · by_cases hneg : q0.y < 0
      · rw [if_pos hneg]
        have hy00 : (⌊q0.y⌋).toNat = 0 := by
          rw [Int.toNat_eq_zero]
          have h8 := Int.floor_le q0.y
          have h9 : (⌊q0.y⌋ : ℚ) < 0 := lt_of_le_of_lt h8 hneg
          exact_mod_cast h9.le
        rw [hy00]
        have hmax : max (((0 : ℕ) : ℕ) : ℚ) q0.y = 0 := by
          rw [Nat.cast_zero]
          exact max_eq_left hneg.le
        rw [hmax]
        unfold xOnLine
        ring
      · rw [if_neg hneg]
        push_neg at hneg
        have hfl0 : (0 : ℤ) ≤ ⌊q0.y⌋ := Int.le_floor.mpr (by exact_mod_cast hneg)
        have hmax : max ((((⌊q0.y⌋).toNat : ℕ)) : ℚ) q0.y = q0.y := by
          apply max_eq_right
          have h10 : (((⌊q0.y⌋).toNat : ℕ) : ℚ) = ((⌊q0.y⌋ : ℤ) : ℚ) := by
            exact_mod_cast congrArg (fun z : ℤ => (z : ℚ)) (Int.toNat_of_nonneg hfl0)
          rw [h10]
          exact Int.floor_le q0.y
        rw [hmax]
        unfold xOnLine
        ring

/-- C1: for a raster built by `new(w, h)` and any segment whose two endpoint
x-coordinates satisfy the caller clipping obligation `0 <= x <= w` (any
y-values), every `add` performed by `draw_line` targets an index in
`[0, w*h + 4)`, i.e. strictly inside the allocated buffer (`len = w*h + 4`),
so the indexed addition never goes out of bounds and never panics. -/
theorem draw_line_writes_in_bounds (w h : ℕ) (p0 p1 : Point)
    (h0a : 0 ≤ p0.x) (h0b : p0.x ≤ (w : ℚ)) (h1a : 0 ≤ p1.x) (h1b : p1.x ≤ (w : ℚ)) :
    ∀ iv ∈ lineWrites w h p0 p1,
      0 ≤ iv.1 ∧ iv.1 < (((Raster.new w h).len : ℕ) : ℤ) := by
  intro iv hiv
  have hlen : (((Raster.new w h).len : ℕ) : ℤ) = ((w * h : ℕ) : ℤ) + 4 := by
    show ((w * h + 4 : ℕ) : ℤ) = _
    push_cast
    ring
  rw [hlen]
  unfold lineWrites at hiv
  by_cases heq : p0.y = p1.y
  · rw [if_pos heq] at hiv
    simp at hiv
  · rw [if_neg heq] at hiv
    by_cases hlt : p0.y < p1.y
    · rw [if_pos hlt, if_pos hlt, if_pos hlt] at hiv
      exact lineWrites_entry w h p0 p1 hlt h0a h0b h1a h1b 1 iv hiv
    · rw [if_neg hlt, if_neg hlt, if_neg hlt] at hiv
      have hgt : p1.y < p0.y := lt_of_le_of_ne (not_lt.mp hlt) (fun hcon => heq hcon.symm)
      exact lineWrites_entry w h p1 p0 hgt h1a h1b h0a h0b (-1) iv hiv

theorem draw_line_writes_in_bounds_witness :
    ((0 : ℤ), (1 / 2 : ℚ)) ∈ lineWrites 2 2 { x := 0, y := 0 } { x := 1, y := 1 } ∧
    0 ≤ ((0 : ℤ), (1 / 2 : ℚ)).1 ∧
      ((0 : ℤ), (1 / 2 : ℚ)).1 < (((Raster.new 2 2).len : ℕ) : ℤ) :=
  ⟨by norm_num [lineWrites, lineLoop, rowWrites, rowWritesCore],
   draw_line_writes_in_bounds 2 2 { x := 0, y := 0 } { x := 1, y := 1 }
     (by norm_num) (by norm_num) (by norm_num) (by norm_num)
     ((0 : ℤ), (1 / 2 : ℚ))
     (by norm_num [lineWrites, lineLoop, rowWrites, rowWritesCore])⟩
